import Mathlib

/-!
Verification of the connection-multiplexing gateway in `otp_api.c`.

The development shallowly embeds the program's data model and operations:
the fixed-capacity connection table (`add_conn`, `remove_conn`), the
deferred-removal queue (`remove_conn_later`, `remove_conn_enqueued`), the
per-connection line accumulator (`read_input`), the request dispatcher
(`send_request`), the reply router, and the event-loop iteration order.
Bytes are modelled as `Nat` (0..255); the C arrays become `List`s; the
`recv` system call is modelled by the byte sequence it returns, capped at
the remaining buffer capacity exactly as the kernel caps it at the length
argument `remaining = BUFLEN - b->size`.
-/

set_option maxRecDepth 100000

namespace OtpApi

/-- `#define BUFLEN 1024` -/
def BUFLEN : Nat := 1024

/-- `#define MAX_CONN 100` -/
def MAX_CONN : Nat := 100

/-- `POLLIN` / `ZMQ_POLLIN` event-interest flag. -/
def POLLIN : Nat := 1

/-- `struct buffer { char *buf; int size; }` — the malloc'd `BUFLEN`-byte
region (`buf`, modelled with its full contents, stale bytes included) and
the number of bytes used (`size`). -/
structure Buffer where
  buf  : List Nat
  size : Nat
deriving DecidableEq, Repr, Inhabited

/-- One `zmq_pollitem_t` of the connection region of `poll_items`:
`socket` (always `none` = NULL for plain TCP sockets), the socket
descriptor `fd`, and the event-interest mask `events`. -/
structure PollItem where
  socket : Option Nat
  fd     : Nat
  events : Nat
deriving DecidableEq, Repr, Inhabited

/-- The global connection table: `conn_items` (the tail of `poll_items`),
the open-connection count `n_conn`, and the `buffers` array. -/
structure ConnState where
  connItems : List PollItem
  nConn     : Nat
  buffers   : List Buffer
deriving DecidableEq, Repr, Inhabited

/-- `add_conn (uint32_t sd)`: if `n_conn < MAX_CONN`, write a fresh poll
item (`socket = NULL`, `fd = sd`, `events = POLLIN`) at index `n_conn` and
increment `n_conn`; otherwise only a diagnostic is printed and nothing
changes. -/
def add_conn (s : ConnState) (sd : Nat) : ConnState :=
  if s.nConn < MAX_CONN then
    { s with
      connItems := s.connItems.set s.nConn { socket := none, fd := sd, events := POLLIN },
      nConn := s.nConn + 1 }
  else s

/-- `remove_conn (uint32_t nc)`: fail on `nc >= n_conn`; otherwise copy the
last active poll item over item `nc` (`memcpy`), swap `buffers[nc]` with
`buffers[last]` (retaining the `char *buf` pointers), zero the vacated
last buffer's `size`, and decrement `n_conn`. -/
def remove_conn (s : ConnState) (nc : Nat) : ConnState × Bool :=
  if s.nConn ≤ nc then (s, false)
  else
    let lastIndex := s.nConn - 1
    let lastItem := s.connItems.getD lastIndex default
    let bnc := s.buffers.getD nc default
    let blast := s.buffers.getD lastIndex default
    ({ connItems := s.connItems.set nc lastItem,
       nConn := s.nConn - 1,
       buffers := (s.buffers.set nc blast).set lastIndex { bnc with size := 0 } },
     true)

/-- `remove_conn_later (uint32_t nc)`: append `nc` to
`conn_remove_queue` (and bump `conn_remove_n`). -/
def remove_conn_later (q : List Nat) (nc : Nat) : List Nat :=
  q ++ [nc]

/-- `remove_conn_enqueued ()`: call `remove_conn` on every queued index in
enqueue order (the queue counter is then reset by the caller's model:
the queue is passed separately and starts empty each iteration). -/
def remove_conn_enqueued (s : ConnState) (q : List Nat) : ConnState :=
  q.foldl (fun t nc => (remove_conn t nc).1) s

/-- Table operations, for quantifying over operation sequences. -/
inductive TableOp where
  | add (sd : Nat)
  | remove (nc : Nat)
deriving DecidableEq, Repr

/-- Apply one table operation. -/
def apply_op (s : ConnState) : TableOp → ConnState
  | .add sd => add_conn s sd
  | .remove nc => (remove_conn s nc).1

/-- Apply a sequence of table operations left to right. -/
def apply_ops (s : ConnState) (ops : List TableOp) : ConnState :=
  ops.foldl apply_op s

/-! ### List access helper lemmas -/

theorem getD_cons_zero {α : Type} (x : α) (xs : List α) (d : α) :
    (x :: xs).getD 0 d = x := rfl

theorem getD_cons_succ {α : Type} (x : α) (xs : List α) (n : Nat) (d : α) :
    (x :: xs).getD (n + 1) d = xs.getD n d := rfl

theorem getD_set_same {α : Type} (l : List α) (i : Nat) (a d : α)
    (h : i < l.length) : (l.set i a).getD i d = a := by
  induction l generalizing i with
  | nil => simp at h
  | cons x xs ih =>
    cases i with
    | zero => rfl
    | succ n =>
      simp only [List.set_cons_succ, getD_cons_succ]
      exact ih n (by simpa using h)

theorem getD_set_diff {α : Type} (l : List α) (i j : Nat) (a d : α)
    (h : i ≠ j) : (l.set i a).getD j d = l.getD j d := by
  induction l generalizing i j with
  | nil => rfl
  | cons x xs ih =>
    cases i with
    | zero =>
      cases j with
      | zero => exact absurd rfl h
      | succ m => rfl
    | succ n =>
      cases j with
      | zero => rfl
      | succ m =>
        simp only [List.set_cons_succ, getD_cons_succ]
        exact ih n m (fun hnm => h (by rw [hnm]))

/-! ### C7 — swap-delete characterization of `remove_conn` -/

/-- C7 (counterexample): the claim says removing the last active slot
"only decrements the count". On a table whose single active slot has a
buffer holding 5 accumulated bytes, `remove_conn 0` also resets that
vacated slot's buffer `size` to 0, so the resulting state differs from
the input state with merely a decremented count. -/
theorem remove_conn_last_not_only_decrement :
    ((remove_conn
        { connItems := [⟨none, 7, 1⟩, ⟨none, 0, 0⟩],
          nConn := 1,
          buffers := [⟨[], 5⟩, ⟨[], 0⟩] } 0).1.buffers.getD 0 default).size = 0 ∧
    (({ connItems := [⟨none, 7, 1⟩, ⟨none, 0, 0⟩],
        nConn := 1,
        buffers := [⟨[], 5⟩, ⟨[], 0⟩] } : ConnState).buffers.getD 0 default).size = 5 ∧
    (remove_conn
        { connItems := [⟨none, 7, 1⟩, ⟨none, 0, 0⟩],
          nConn := 1,
          buffers := [⟨[], 5⟩, ⟨[], 0⟩] } 0).1 ≠
      { connItems := [⟨none, 7, 1⟩, ⟨none, 0, 0⟩],
        nConn := 0,
        buffers := [⟨[], 5⟩, ⟨[], 0⟩] } := by
  refine ⟨rfl, rfl, ?_⟩
  decide

/-- C7 (amended): `remove_conn` on an out-of-range index fails and changes
nothing; removing a non-last active slot `nc` relocates exactly the
formerly-last slot's poll item and buffer into `nc`, decrements the count,
resets the vacated last slot's buffer length to zero, and leaves every
other slot untouched; removing the last active slot decrements the count
and resets that vacated slot's buffer length to zero (its poll item and
buffer contents are otherwise unchanged). -/
theorem remove_conn_spec (s : ConnState) (nc : Nat)
    (hi : s.nConn ≤ s.connItems.length) (hb : s.nConn ≤ s.buffers.length) :
    (s.nConn ≤ nc → remove_conn s nc = (s, false)) ∧
    (nc < s.nConn →
      (remove_conn s nc).2 = true ∧
      (remove_conn s nc).1.nConn = s.nConn - 1 ∧
      (remove_conn s nc).1.connItems.getD nc default =
        s.connItems.getD (s.nConn - 1) default ∧
      (remove_conn s nc).1.buffers.getD (s.nConn - 1) default =
        { s.buffers.getD nc default with size := 0 } ∧
      (nc ≠ s.nConn - 1 →
        (remove_conn s nc).1.buffers.getD nc default =
          s.buffers.getD (s.nConn - 1) default) ∧
      (∀ j, j ≠ nc →
        (remove_conn s nc).1.connItems.getD j default =
          s.connItems.getD j default) ∧
      (∀ j, j ≠ nc → j ≠ s.nConn - 1 →
        (remove_conn s nc).1.buffers.getD j default = s.buffers.getD j default)) := by
  constructor
  · intro h
    simp [remove_conn, h]
  · intro h
    have hn : ¬ s.nConn ≤ nc := Nat.not_le.mpr h
    have hnc_items : nc < s.connItems.length := Nat.lt_of_lt_of_le h hi
    have hnc_bufs : nc < s.buffers.length := Nat.lt_of_lt_of_le h hb
    have hlast_bufs : s.nConn - 1 < s.buffers.length :=
      Nat.lt_of_lt_of_le (Nat.sub_lt (Nat.pos_of_ne_zero (by omega)) Nat.one_pos) hb
    refine ⟨by simp [remove_conn, hn], by simp [remove_conn, hn], ?_, ?_, ?_, ?_, ?_⟩
    · by_cases hx : nc = s.nConn - 1
      · subst hx
        simp only [remove_conn, hn, if_false]
        rw [getD_set_same _ _ _ _ hnc_items]
      · simp only [remove_conn, hn, if_false]
        rw [getD_set_same _ _ _ _ hnc_items]
    · by_cases hx : nc = s.nConn - 1
      · subst hx
        simp only [remove_conn, hn, if_false]
        rw [getD_set_same _ _ _ _ (by simpa using hnc_bufs)]
      · simp only [remove_conn, hn, if_false]
        rw [getD_set_same _ _ _ _ (by simpa using hlast_bufs)]
    · intro hx
      simp only [remove_conn, hn, if_false]
      rw [getD_set_diff _ _ _ _ _ (fun h' => hx h'.symm),
          getD_set_same _ _ _ _ hnc_bufs]
    · intro j hj
      simp only [remove_conn, hn, if_false]
      rw [getD_set_diff _ _ _ _ _ (fun h' => hj h'.symm)]
    · intro j hj hj'
      simp only [remove_conn, hn, if_false]
      rw [getD_set_diff _ _ _ _ _ (fun h' => hj' h'.symm),
          getD_set_diff _ _ _ _ _ (fun h' => hj h'.symm)]

/-- C7 witness: the amended characterization applied to a concrete
two-connection table, removing the non-last slot 0. -/
theorem remove_conn_spec_witness :
    (({ connItems := [⟨none, 7, 1⟩, ⟨none, 8, 1⟩],
        nConn := 2,
        buffers := [⟨[65], 1⟩, ⟨[66], 1⟩] } : ConnState).nConn ≤ 2 ∧
     ({ connItems := [⟨none, 7, 1⟩, ⟨none, 8, 1⟩],
        nConn := 2,
        buffers := [⟨[65], 1⟩, ⟨[66], 1⟩] } : ConnState).nConn ≤ 2) ∧
    ((2 : Nat) ≤ 0 → remove_conn
        { connItems := [⟨none, 7, 1⟩, ⟨none, 8, 1⟩],
          nConn := 2,
          buffers := [⟨[65], 1⟩, ⟨[66], 1⟩] } 0 =
        ({ connItems := [⟨none, 7, 1⟩, ⟨none, 8, 1⟩],
           nConn := 2,
           buffers := [⟨[65], 1⟩, ⟨[66], 1⟩] }, false)) ∧
    ((0 : Nat) < 2 →
      (remove_conn
        { connItems := [⟨none, 7, 1⟩, ⟨none, 8, 1⟩],
          nConn := 2,
          buffers := [⟨[65], 1⟩, ⟨[66], 1⟩] } 0).2 = true ∧
      (remove_conn
        { connItems := [⟨none, 7, 1⟩, ⟨none, 8, 1⟩],
          nConn := 2,
          buffers := [⟨[65], 1⟩, ⟨[66], 1⟩] } 0).1.nConn = 2 - 1 ∧
      (remove_conn
        { connItems := [⟨none, 7, 1⟩, ⟨none, 8, 1⟩],
          nConn := 2,
          buffers := [⟨[65], 1⟩, ⟨[66], 1⟩] } 0).1.connItems.getD 0 default =
        ([⟨none, 7, 1⟩, ⟨none, 8, 1⟩] : List PollItem).getD (2 - 1) default ∧
      (remove_conn
        { connItems := [⟨none, 7, 1⟩, ⟨none, 8, 1⟩],
          nConn := 2,
          buffers := [⟨[65], 1⟩, ⟨[66], 1⟩] } 0).1.buffers.getD (2 - 1) default =
        { ([⟨[65], 1⟩, ⟨[66], 1⟩] : List Buffer).getD 0 default with size := 0 } ∧
      ((0 : Nat) ≠ 2 - 1 →
        (remove_conn
          { connItems := [⟨none, 7, 1⟩, ⟨none, 8, 1⟩],
            nConn := 2,
            buffers := [⟨[65], 1⟩, ⟨[66], 1⟩] } 0).1.buffers.getD 0 default =
          ([⟨[65], 1⟩, ⟨[66], 1⟩] : List Buffer).getD (2 - 1) default) ∧
      (∀ j, j ≠ 0 →
        (remove_conn
          { connItems := [⟨none, 7, 1⟩, ⟨none, 8, 1⟩],
            nConn := 2,
            buffers := [⟨[65], 1⟩, ⟨[66], 1⟩] } 0).1.connItems.getD j default =
          ([⟨none, 7, 1⟩, ⟨none, 8, 1⟩] : List PollItem).getD j default) ∧
      (∀ j, j ≠ 0 → j ≠ 2 - 1 →
        (remove_conn
          { connItems := [⟨none, 7, 1⟩, ⟨none, 8, 1⟩],
            nConn := 2,
            buffers := [⟨[65], 1⟩, ⟨[66], 1⟩] } 0).1.buffers.getD j default =
          ([⟨[65], 1⟩, ⟨[66], 1⟩] : List Buffer).getD j default)) :=
  ⟨⟨by decide, by decide⟩,
   (remove_conn_spec
      { connItems := [⟨none, 7, 1⟩, ⟨none, 8, 1⟩],
        nConn := 2,
        buffers := [⟨[65], 1⟩, ⟨[66], 1⟩] } 0 (by decide) (by decide)).1,
   (remove_conn_spec
      { connItems := [⟨none, 7, 1⟩, ⟨none, 8, 1⟩],
        nConn := 2,
        buffers := [⟨[65], 1⟩, ⟨[66], 1⟩] } 0 (by decide) (by decide)).2⟩

/-! ### C1 — batch removal via the removal queue -/

/-- C1 (counterexample): with two open connections, the queue `[0, 1]`
holds two distinct indices, both valid when enqueued, each denoting a
different live connection (no live connection enqueued twice). Applying
the whole queue reduces `n_conn` by 1, not by 2: removing index 0 swaps
the last connection into slot 0, so the later removal of index 1 finds
`1 ≥ n_conn` and fails. The claimed order-independent reduction by `N`
is false. -/
theorem remove_conn_enqueued_not_batch :
    ([0, 1] : List Nat).Nodup ∧
    (∀ x ∈ ([0, 1] : List Nat),
      x < ({ connItems := [⟨none, 3, 1⟩, ⟨none, 4, 1⟩],
             nConn := 2,
             buffers := [⟨[], 0⟩, ⟨[], 0⟩] } : ConnState).nConn) ∧
    (remove_conn_enqueued
        { connItems := [⟨none, 3, 1⟩, ⟨none, 4, 1⟩],
          nConn := 2,
          buffers := [⟨[], 0⟩, ⟨[], 0⟩] } [0, 1]).nConn = 1 ∧
    (1 : Nat) ≠ 2 - 2 := by
  refine ⟨by decide, by decide, ?_, by decide⟩
  decide

/-- C1 (amended): applying the removal queue with `N` enqueued distinct
indices reduces `n_conn` by exactly `N` provided every index is still
below the current active count at the moment its removal is applied —
which holds whenever the indices are enqueued in strictly decreasing
order. (In general the reduction can be smaller: an enqueued index can be
invalidated by an earlier removal in the same batch, as the counterexample
shows, so the reduction is not order-independent.) -/
theorem remove_conn_enqueued_decreasing (s : ConnState) (q : List Nat)
    (hsort : List.Pairwise (fun a b => b < a) q)
    (hlt : ∀ x ∈ q, x < s.nConn) :
    (remove_conn_enqueued s q).nConn = s.nConn - q.length := by
  induction q generalizing s with
  | nil => simp [remove_conn_enqueued]
  | cons a t ih =>
    have ha : a < s.nConn := hlt a (List.mem_cons_self a t)
    have hstep : remove_conn_enqueued s (a :: t) =
        remove_conn_enqueued (remove_conn s a).1 t := rfl
    have hcount : (remove_conn s a).1.nConn = s.nConn - 1 := by
      simp [remove_conn, Nat.not_le.mpr ha]
    rw [hstep, ih (remove_conn s a).1 hsort.of_cons ?hlt', hcount]
    · simp only [List.length_cons]
      omega
    case hlt' =>
      intro x hx
      have hxa : x < a := (List.pairwise_cons.mp hsort).1 x hx
      rw [hcount]
      omega

/-- C1 witness: the amended theorem applied to a concrete two-connection
table with the strictly decreasing queue `[1, 0]`: both removals succeed
and `n_conn` drops from 2 to 0. -/
theorem remove_conn_enqueued_decreasing_witness :
    (List.Pairwise (fun a b => b < a) ([1, 0] : List Nat) ∧
     ∀ x ∈ ([1, 0] : List Nat),
       x < ({ connItems := [⟨none, 3, 1⟩, ⟨none, 4, 1⟩],
              nConn := 2,
              buffers := [⟨[], 0⟩, ⟨[], 0⟩] } : ConnState).nConn) ∧
    (remove_conn_enqueued
        { connItems := [⟨none, 3, 1⟩, ⟨none, 4, 1⟩],
          nConn := 2,
          buffers := [⟨[], 0⟩, ⟨[], 0⟩] } [1, 0]).nConn =
      ({ connItems := [⟨none, 3, 1⟩, ⟨none, 4, 1⟩],
         nConn := 2,
         buffers := [⟨[], 0⟩, ⟨[], 0⟩] } : ConnState).nConn - ([1, 0] : List Nat).length :=
  ⟨⟨by decide, by decide⟩,
   remove_conn_enqueued_decreasing
     { connItems := [⟨none, 3, 1⟩, ⟨none, 4, 1⟩],
       nConn := 2,
       buffers := [⟨[], 0⟩, ⟨[], 0⟩] } [1, 0] (by decide) (by decide)⟩

/-! ### C8 — capacity invariant and `add_conn` behavior -/

/-- Helper: neither operation ever pushes `n_conn` above `MAX_CONN`. -/
theorem apply_op_nConn_le (s : ConnState) (op : TableOp)
    (h : s.nConn ≤ MAX_CONN) : (apply_op s op).nConn ≤ MAX_CONN := by
  cases op with
  | add sd =>
    by_cases hlt : s.nConn < MAX_CONN
    · simp [apply_op, add_conn, hlt]
      omega
    · simp [apply_op, add_conn, hlt]
      exact h
  | remove nc =>
    by_cases hge : s.nConn ≤ nc
    · simp [apply_op, remove_conn, hge]
      exact h
    · simp [apply_op, remove_conn, hge]
      omega

/-- C8: for every sequence of `add`/`remove` operations starting from a
state with `n_conn ≤ MAX_CONN`, the count stays in `[0, MAX_CONN]` (the
lower bound is inherent to `Nat` and to the guarded decrement);
`add_conn` below capacity appends the descriptor at index `n_conn` with
`socket = NULL` and `POLLIN` interest, increments `n_conn`, and leaves the
buffers and all other poll items unchanged; `add_conn` at capacity leaves
the state completely unchanged. -/
theorem add_conn_spec (s : ConnState) (sd : Nat) (ops : List TableOp)
    (hlen : s.connItems.length = MAX_CONN) (hn : s.nConn ≤ MAX_CONN) :
    (apply_ops s ops).nConn ≤ MAX_CONN ∧
    (s.nConn < MAX_CONN →
      (add_conn s sd).nConn = s.nConn + 1 ∧
      (add_conn s sd).connItems.getD s.nConn default = ⟨none, sd, POLLIN⟩ ∧
      (add_conn s sd).buffers = s.buffers ∧
      (∀ j, j ≠ s.nConn →
        (add_conn s sd).connItems.getD j default = s.connItems.getD j default)) ∧
    (MAX_CONN ≤ s.nConn → add_conn s sd = s) := by
  refine ⟨?_, ?_, ?_⟩
  · clear hlen
    induction ops generalizing s with
    | nil => exact hn
    | cons op t ih =>
      exact ih (apply_op s op) (apply_op_nConn_le s op hn)
  · intro hlt
    refine ⟨by simp [add_conn, hlt], ?_, by simp [add_conn, hlt], ?_⟩
    · simp only [add_conn, hlt, if_true]
      exact getD_set_same _ _ _ _ (by omega)
    · intro j hj
      simp only [add_conn, hlt, if_true]
      exact getD_set_diff _ _ _ _ _ (fun h' => hj h'.symm)
  · intro hge
    simp [add_conn, Nat.not_lt.mpr hge]

/-- C8 witness: the theorem applied to the freshly initialized table
(`n_conn = 0`, 100 poll items) with descriptor 5 and the operation
sequence add 5, add 6, remove 0. -/
theorem add_conn_spec_witness :
    (({ connItems := List.replicate 100 default,
        nConn := 0,
        buffers := List.replicate 100 default } : ConnState).connItems.length = MAX_CONN ∧
     ({ connItems := List.replicate 100 default,
        nConn := 0,
        buffers := List.replicate 100 default } : ConnState).nConn ≤ MAX_CONN) ∧
    (apply_ops
        { connItems := List.replicate 100 default,
          nConn := 0,
          buffers := List.replicate 100 default }
        [TableOp.add 5, TableOp.add 6, TableOp.remove 0]).nConn ≤ MAX_CONN :=
  ⟨⟨by simp [MAX_CONN], by simp⟩,
   (add_conn_spec
      { connItems := List.replicate 100 default,
        nConn := 0,
        buffers := List.replicate 100 default } 5
      [TableOp.add 5, TableOp.add 6, TableOp.remove 0]
      (by simp [MAX_CONN]) (by simp)).1⟩

/-! ### The line accumulator `read_input` -/

/-- Successive byte stores through the `recv` destination pointer
`c = b->buf + b->size`: overwrite positions `pos, pos+1, ...` with `data`. -/
def writeAt (l : List Nat) (pos : Nat) (data : List Nat) : List Nat :=
  match data with
  | [] => l
  | d :: ds => writeAt (l.set pos d) (pos + 1) ds

/-- `*c == '\n' || *c == '\r'` — the line-terminator test. -/
def isTerm (x : Nat) : Bool := x == 10 || x == 13

/-- The scan loop `for (char *end = c + received; c <= end; ++c)`:
starting at index `start`, inspect `count` consecutive positions and
return the index of the first terminator byte, if any. (`read_input`
calls it with `count = received + 1`: the loop bound `c <= end` is
inclusive, so one position past the newly received bytes is inspected
too.) -/
def findTerm (l : List Nat) : Nat → Nat → Option Nat
  | _, 0 => none
  | start, count + 1 =>
    if isTerm (l.getD start 0) then some start
    else findTerm l (start + 1) count

/-- Outcome of one `read_input` call, in the spec's vocabulary: the C
function returns `eol` (true exactly for `lineComplete`) and enqueues a
removal exactly in the `peerClosed` case. -/
inductive ReadResult where
  | peerClosed
  | overflow
  | lineComplete
  | needMore
deriving DecidableEq, Repr

/-- `read_input (uint32_t nc)` on connection `nc`, where `data` is the
byte sequence the peer has pending: `recv` stores at most
`remaining = BUFLEN - b->size` bytes at `b->buf + b->size` (hence
`data.take (BUFLEN - b.size)`); a zero-length result means the peer
closed, so the connection is enqueued for removal and `false` is
returned; then `b->size += received`, and if the buffer is now full the
function reports the request as too long and returns `false` (no enqueue,
no send); otherwise the terminator scan runs over the received bytes
(plus one trailing position, see `findTerm`), NUL-ing the first
terminator found. -/
def read_input (b : Buffer) (q : List Nat) (nc : Nat) (data : List Nat) :
    Buffer × List Nat × ReadResult :=
  if (data.take (BUFLEN - b.size)).length = 0 then
    (b, remove_conn_later q nc, ReadResult.peerClosed)
  else if BUFLEN ≤ b.size + (data.take (BUFLEN - b.size)).length then
    ({ buf := writeAt b.buf b.size (data.take (BUFLEN - b.size)),
       size := b.size + (data.take (BUFLEN - b.size)).length }, q, ReadResult.overflow)
  else
    match findTerm (writeAt b.buf b.size (data.take (BUFLEN - b.size))) b.size
        ((data.take (BUFLEN - b.size)).length + 1) with
    | some i =>
      ({ buf := (writeAt b.buf b.size (data.take (BUFLEN - b.size))).set i 0,
         size := b.size + (data.take (BUFLEN - b.size)).length }, q,
       ReadResult.lineComplete)
    | none =>
      ({ buf := writeAt b.buf b.size (data.take (BUFLEN - b.size)),
         size := b.size + (data.take (BUFLEN - b.size)).length }, q,
       ReadResult.needMore)

theorem writeAt_length (data l : List Nat) (pos : Nat) :
    (writeAt l pos data).length = l.length := by
  induction data generalizing l pos with
  | nil => rfl
  | cons d ds ih =>
    rw [writeAt, ih, List.length_set]

theorem writeAt_getD_lt (data l : List Nat) (pos j : Nat) (h : j < pos) :
    (writeAt l pos data).getD j 0 = l.getD j 0 := by
  induction data generalizing l pos with
  | nil => rfl
  | cons d ds ih =>
    rw [writeAt, ih (l.set pos d) (pos + 1) (by omega)]
    exact getD_set_diff _ _ _ _ _ (by omega)

theorem writeAt_getD_in (data : List Nat) (l : List Nat) (pos k : Nat)
    (hk : k < data.length) (hfit : pos + data.length ≤ l.length) :
    (writeAt l pos data).getD (pos + k) 0 = data.getD k 0 := by
  induction data generalizing l pos k with
  | nil => simp at hk
  | cons d ds ih =>
    rw [writeAt]
    cases k with
    | zero =>
      show (writeAt (l.set pos d) (pos + 1) ds).getD pos 0 = d
      rw [writeAt_getD_lt ds (l.set pos d) (pos + 1) pos (by omega)]
      exact getD_set_same _ _ _ _ (by simp at hfit; omega)
    | succ k' =>
      have hshift : pos + (k' + 1) = (pos + 1) + k' := by omega
      rw [hshift, ih (l.set pos d) (pos + 1) k' (by simpa using hk)
            (by simp [List.length_set] at hfit ⊢; omega)]
      rfl

theorem findTerm_found (l : List Nat) (count start j : Nat)
    (hj : j < count) (ht : isTerm (l.getD (start + j) 0) = true)
    (hmin : ∀ k, k < j → isTerm (l.getD (start + k) 0) = false) :
    findTerm l start count = some (start + j) := by
  induction count generalizing start j with
  | zero => omega
  | succ c ih =>
    rw [findTerm]
    by_cases h0 : isTerm (l.getD start 0) = true
    · have hj0 : j = 0 := by
        by_contra hne
        have hk := hmin 0 (Nat.pos_of_ne_zero hne)
        rw [Nat.add_zero] at hk
        rw [hk] at h0
        exact Bool.noConfusion h0
      subst hj0
      rw [if_pos h0]
      rfl
    · have hjne : j ≠ 0 := by
        intro hj0
        subst hj0
        rw [Nat.add_zero] at ht
        exact h0 ht
      obtain ⟨j', rfl⟩ : ∃ j', j = j' + 1 := ⟨j - 1, by omega⟩
      rw [if_neg h0]
      have hrec := ih (start + 1) j' (by omega)
        (by rw [show start + 1 + j' = start + (j' + 1) by omega]; exact ht)
        (fun k hk => by
          rw [show start + 1 + k = start + (k + 1) by omega]
          exact hmin (k + 1) (by omega))
      rw [hrec]
      congr 1
      omega

/-- Branch-reduction helper: `read_input` in the buffer-full case. -/
theorem read_input_eq_overflow (b : Buffer) (q : List Nat) (nc : Nat) (data : List Nat)
    (h1 : (data.take (BUFLEN - b.size)).length ≠ 0)
    (h2 : BUFLEN ≤ b.size + (data.take (BUFLEN - b.size)).length) :
    read_input b q nc data =
      ({ buf := writeAt b.buf b.size (data.take (BUFLEN - b.size)),
         size := b.size + (data.take (BUFLEN - b.size)).length }, q,
       ReadResult.overflow) := by
  unfold read_input
  rw [if_neg h1, if_pos h2]

/-- Branch-reduction helper: `read_input` when the scan finds a
terminator. -/
theorem read_input_eq_lineComplete (b : Buffer) (q : List Nat) (nc : Nat)
    (data : List Nat) (i : Nat)
    (h1 : (data.take (BUFLEN - b.size)).length ≠ 0)
    (h2 : ¬ BUFLEN ≤ b.size + (data.take (BUFLEN - b.size)).length)
    (h3 : findTerm (writeAt b.buf b.size (data.take (BUFLEN - b.size))) b.size
        ((data.take (BUFLEN - b.size)).length + 1) = some i) :
    read_input b q nc data =
      ({ buf := (writeAt b.buf b.size (data.take (BUFLEN - b.size))).set i 0,
         size := b.size + (data.take (BUFLEN - b.size)).length }, q,
       ReadResult.lineComplete) := by
  unfold read_input
  rw [if_neg h1, if_neg h2, h3]

/-! ### C5 — line accumulation -/

/-- C5 (counterexample): a connection buffer holding 1023 accumulated
bytes receives the single byte `'\n'` (10). The appended byte is a line
terminator, yet the read yields Overflow, not LineComplete: the size
check `b->size >= BUFLEN` runs before the terminator scan, so the
terminator delivered by the read that fills the buffer to `B` is never
seen. -/
theorem read_input_term_at_capacity :
    (10 : Nat) ∈ ([10] : List Nat) ∧
    ([10] : List Nat).take (BUFLEN - 1023) = [10] ∧
    (read_input ⟨List.replicate 1024 97, 1023⟩ [] 0 [10]).2.2 = ReadResult.overflow ∧
    ReadResult.overflow ≠ ReadResult.lineComplete := by
  refine ⟨by decide, rfl, rfl, by decide⟩

/-- C5 (amended): for a single `read_input` on a connection whose
accumulated size plus the newly received bytes stays within capacity:
if the new total reaches `BUFLEN` the read yields Overflow — even when
the received bytes contain a terminator; if any received byte is `'\n'`
or `'\r'` **and** the new total is strictly below `BUFLEN`, the read
yields LineComplete, the first received terminator byte is overwritten
with a NUL, the previously accumulated bytes are unchanged, and the
received bytes strictly before the terminator are stored verbatim after
them — i.e. the exposed request line is exactly all accumulated bytes
strictly before the terminator. -/
theorem read_input_accumulation (b : Buffer) (q : List Nat) (nc : Nat)
    (data : List Nat) (hlen : b.buf.length = BUFLEN)
    (hsz : b.size + data.length ≤ BUFLEN) (hne : data ≠ []) :
    (b.size + data.length = BUFLEN →
       (read_input b q nc data).2.2 = ReadResult.overflow) ∧
    (∀ j, j < data.length → isTerm (data.getD j 0) = true →
       (∀ k, k < j → isTerm (data.getD k 0) = false) →
       b.size + data.length < BUFLEN →
       (read_input b q nc data).2.2 = ReadResult.lineComplete ∧
       (read_input b q nc data).1.size = b.size + data.length ∧
       (read_input b q nc data).1.buf.getD (b.size + j) 0 = 0 ∧
       (∀ k, k < b.size →
          (read_input b q nc data).1.buf.getD k 0 = b.buf.getD k 0) ∧
       (∀ k, k < j →
          (read_input b q nc data).1.buf.getD (b.size + k) 0 = data.getD k 0)) := by
  have htake : data.take (BUFLEN - b.size) = data :=
    List.take_of_length_le (by omega)
  have hlen0 : data.length ≠ 0 := fun h => hne (List.length_eq_zero.mp h)
  constructor
  · intro hfull
    have hred := read_input_eq_overflow b q nc data
      (by rw [htake]; exact hlen0) (by rw [htake]; omega)
    rw [hred]
  · intro j hj hterm hmin hlt
    have hfit : b.size + data.length ≤ b.buf.length := by rw [hlen]; omega
    have hscan : findTerm (writeAt b.buf b.size data) b.size (data.length + 1) =
        some (b.size + j) := by
      refine findTerm_found _ _ _ _ (by omega) ?_ ?_
      · rw [writeAt_getD_in data b.buf b.size j hj hfit]
        exact hterm
      · intro k hk
        rw [writeAt_getD_in data b.buf b.size k (by omega) hfit]
        exact hmin k hk
    have hred := read_input_eq_lineComplete b q nc data (b.size + j)
      (by rw [htake]; exact hlen0) (by rw [htake]; omega)
      (by rw [htake]; exact hscan)
    rw [htake] at hred
    have hwlen : (writeAt b.buf b.size data).length = BUFLEN := by
      rw [writeAt_length, hlen]
    refine ⟨by rw [hred], by rw [hred], ?_, ?_, ?_⟩
    · rw [hred]
      exact getD_set_same _ _ _ _ (by rw [hwlen]; omega)
    · intro k hk
      rw [hred]
      show ((writeAt b.buf b.size data).set (b.size + j) 0).getD k 0 = b.buf.getD k 0
      rw [getD_set_diff _ _ _ _ _ (by omega)]
      exact writeAt_getD_lt data b.buf b.size k (by omega)
    · intro k hk
      rw [hred]
      show ((writeAt b.buf b.size data).set (b.size + j) 0).getD (b.size + k) 0 =
        data.getD k 0
      rw [getD_set_diff _ _ _ _ _ (by omega)]
      exact writeAt_getD_in data b.buf b.size k (by omega) hfit

/-- C5 witness: a fresh buffer receives `['G', '\r']`; the read completes
the line, NULs the terminator at index 1, and stores byte `'G'` at
index 0. -/
theorem read_input_accumulation_witness :
    ((⟨List.replicate 1024 0, 0⟩ : Buffer).buf.length = BUFLEN ∧
     (⟨List.replicate 1024 0, 0⟩ : Buffer).size + ([71, 13] : List Nat).length ≤ BUFLEN ∧
     ([71, 13] : List Nat) ≠ [] ∧
     (1 : Nat) < ([71, 13] : List Nat).length ∧
     isTerm (([71, 13] : List Nat).getD 1 0) = true ∧
     (∀ k, k < 1 → isTerm (([71, 13] : List Nat).getD k 0) = false) ∧
     (⟨List.replicate 1024 0, 0⟩ : Buffer).size + ([71, 13] : List Nat).length < BUFLEN) ∧
    ((read_input ⟨List.replicate 1024 0, 0⟩ [] 0 [71, 13]).2.2 =
       ReadResult.lineComplete ∧
     (read_input ⟨List.replicate 1024 0, 0⟩ [] 0 [71, 13]).1.size =
       (⟨List.replicate 1024 0, 0⟩ : Buffer).size + ([71, 13] : List Nat).length ∧
     (read_input ⟨List.replicate 1024 0, 0⟩ [] 0 [71, 13]).1.buf.getD
       ((⟨List.replicate 1024 0, 0⟩ : Buffer).size + 1) 0 = 0 ∧
     (∀ k, k < (⟨List.replicate 1024 0, 0⟩ : Buffer).size →
        (read_input ⟨List.replicate 1024 0, 0⟩ [] 0 [71, 13]).1.buf.getD k 0 =
          (⟨List.replicate 1024 0, 0⟩ : Buffer).buf.getD k 0) ∧
     (∀ k, k < 1 →
        (read_input ⟨List.replicate 1024 0, 0⟩ [] 0 [71, 13]).1.buf.getD
          ((⟨List.replicate 1024 0, 0⟩ : Buffer).size + k) 0 =
          ([71, 13] : List Nat).getD k 0)) :=
  ⟨⟨by simp [BUFLEN], by simp [BUFLEN], by decide, by decide, by decide, by decide,
    by simp [BUFLEN]⟩,
   (read_input_accumulation ⟨List.replicate 1024 0, 0⟩ [] 0 [71, 13]
      (by simp [BUFLEN]) (by simp [BUFLEN]) (by decide)).2 1
      (by decide) (by decide) (by decide) (by simp [BUFLEN])⟩

/-! ### C3 — overflow handling -/

/-- C3: a connection with 1000 accumulated bytes receives 24 more
non-terminator bytes, filling the buffer to `BUFLEN`. The read reports
the request as too long and returns — but the removal queue is left
unchanged (empty): unlike the peer-closed path, the overflow path never
calls `remove_conn_later`, so the connection is *not* enqueued for
removal in that iteration (it stays in the table; no response is sent
either). -/
theorem read_input_overflow_no_enqueue :
    (read_input ⟨List.replicate 1024 97, 1000⟩ [] 5 (List.replicate 24 98)).2.2 =
      ReadResult.overflow ∧
    (read_input ⟨List.replicate 1024 97, 1000⟩ [] 5 (List.replicate 24 98)).2.1 = [] :=
  ⟨rfl, rfl⟩

/-! ### C10 — buffer accesses of `read_input` -/

/-- `writeAt` leaves every position at or past the end of the written
region untouched. -/
theorem writeAt_getD_gt (data l : List Nat) (pos j : Nat)
    (h : pos + data.length ≤ j) : (writeAt l pos data).getD j 0 = l.getD j 0 := by
  induction data generalizing l pos with
  | nil => rfl
  | cons d ds ih =>
    rw [writeAt, ih (l.set pos d) (pos + 1) (by simp at h ⊢; omega)]
    exact getD_set_diff _ _ _ _ _ (by simp at h; omega)

theorem getD_replicate (n k a d : Nat) (h : k < n) :
    (List.replicate n a).getD k d = a := by
  induction n generalizing k with
  | zero => omega
  | succ m ih =>
    cases k with
    | zero => rfl
    | succ k2 => exact ih k2 (by omega)

/-- The debug prints `printf ("received: %s \n", c)` and
`printf ("buffer is now: %s \n", b->buf)`, executed on every read that
is neither peer-closed nor overflow, before the terminator scan. A `%s`
conversion reads successive bytes from its argument until the first NUL
byte: the scan that starts at buffer offset `start` reads position `i`
exactly when `start ≤ i` and no position in `[start, i)` holds a NUL.
In particular, when no position in `[start, BUFLEN)` holds a NUL, the
scan reads position `BUFLEN` (and beyond) — outside the `BUFLEN`-byte
allocation. -/
def printf_reads (buf : List Nat) (start i : Nat) : Bool :=
  decide (start ≤ i) &&
    (List.range' start (i - start)).all (fun k => buf.getD k 0 != 0)

/-- C10: a reachable connection state on which `read_input`'s debug
`%s` prints read past the end of the `BUFLEN`-byte buffer, refuting the
claim that every position read stays strictly below `BUFLEN`. The chain
(every read keeps the accumulated size at most `BUFLEN`):
(1) a fresh connection receives 1024 NUL-free bytes (value 97) in one
read — the read overflows, returns before the prints, and leaves every
one of the 1024 buffer positions holding 97;
(2) the peer then closes: the next read is zero-length, the slot is
enqueued, and `remove_conn` recycles it — the vacated buffer's size is
reset to 0 but its contents are retained;
(3) the recycled buffer's next connection delivers the two NUL-free
bytes 104, 105: the read is an ordinary `needMore` read (size 2), the
prints run, and the `%s` scan from position 0 (`c = b->buf + b->size`
with `b->size = 0`, and likewise `b->buf`) finds no NUL among all 1024
buffer positions, so it reads position `BUFLEN` — which is not strictly
below `BUFLEN`. -/
theorem read_input_printf_reads_past_buffer :
    (read_input ⟨List.replicate 1024 0, 0⟩ [] 0 (List.replicate 1024 97)).2.2 =
      ReadResult.overflow ∧
    (read_input ⟨List.replicate 1024 0, 0⟩ [] 0 (List.replicate 1024 97)).1.size =
      1024 ∧
    (read_input ⟨List.replicate 1024 0, 0⟩ [] 0 (List.replicate 1024 97)).1.buf.length =
      1024 ∧
    (∀ k, k < 1024 →
      (read_input ⟨List.replicate 1024 0, 0⟩ [] 0
        (List.replicate 1024 97)).1.buf.getD k 0 = 97) ∧
    (read_input ⟨List.replicate 1024 97, 1024⟩ [] 0 []).2.2 =
      ReadResult.peerClosed ∧
    (read_input ⟨List.replicate 1024 97, 1024⟩ [] 0 []).2.1 = [0] ∧
    (remove_conn ⟨[⟨none, 7, 1⟩], 1, [⟨List.replicate 1024 97, 1024⟩]⟩
        0).1.buffers.getD 0 default = ⟨List.replicate 1024 97, 0⟩ ∧
    (read_input ⟨List.replicate 1024 97, 0⟩ [] 0 [104, 105]).2.2 =
      ReadResult.needMore ∧
    (read_input ⟨List.replicate 1024 97, 0⟩ [] 0 [104, 105]).1.size = 2 ∧
    printf_reads (read_input ⟨List.replicate 1024 97, 0⟩ [] 0 [104, 105]).1.buf 0
      BUFLEN = true ∧
    ¬ BUFLEN < BUFLEN := by
  have hred1 : read_input ⟨List.replicate 1024 0, 0⟩ [] 0 (List.replicate 1024 97) =
      ({ buf := writeAt (List.replicate 1024 0) 0 (List.replicate 1024 97),
         size := 1024 }, [], ReadResult.overflow) := rfl
  have hred3 : read_input ⟨List.replicate 1024 97, 0⟩ [] 0 [104, 105] =
      ({ buf := writeAt (List.replicate 1024 97) 0 [104, 105], size := 2 }, [],
       ReadResult.needMore) := rfl
  refine ⟨rfl, by rw [hred1], ?_, ?_, rfl, rfl, rfl, rfl, by rw [hred3], ?_, by omega⟩
  · rw [hred1]
    show (writeAt (List.replicate 1024 0) 0 (List.replicate 1024 97)).length = 1024
    rw [writeAt_length]
    simp
  · intro k hk
    rw [hred1]
    show (writeAt (List.replicate 1024 0) 0 (List.replicate 1024 97)).getD k 0 = 97
    have hin := writeAt_getD_in (List.replicate 1024 97) (List.replicate 1024 0) 0 k
      (by simpa using hk) (by simp)
    rw [Nat.zero_add] at hin
    rw [hin]
    exact getD_replicate 1024 k 97 0 hk
  · rw [hred3]
    show printf_reads (writeAt (List.replicate 1024 97) 0 [104, 105]) 0 BUFLEN = true
    rw [printf_reads]
    rw [Bool.and_eq_true]
    refine ⟨by decide, ?_⟩
    rw [List.all_eq_true]
    intro x hx
    have hxr := List.mem_range'_1.mp hx
    have hxlt : x < 1024 := by
      have hB : BUFLEN = 1024 := rfl
      omega
    by_cases hx0 : x = 0
    · subst hx0
      have hin := writeAt_getD_in [104, 105] (List.replicate 1024 97) 0 0
        (by decide) (by simp)
      rw [Nat.zero_add] at hin
      rw [hin]
      decide
    · by_cases hx1 : x = 1
      · subst hx1
        have hin := writeAt_getD_in [104, 105] (List.replicate 1024 97) 0 1
          (by decide) (by simp)
        rw [Nat.zero_add] at hin
        rw [hin]
        decide
      · have hge : 0 + ([104, 105] : List Nat).length ≤ x := by simp; omega
        rw [writeAt_getD_gt [104, 105] (List.replicate 1024 97) 0 x hge,
            getD_replicate 1024 x 97 0 hxlt]
        decide

/-! ### The request dispatcher `send_request` -/

/-- Byte sequence of a string (the request line as stored in the
buffer). -/
def strBytes (s : String) : List Nat := s.toList.map Char.toNat

/-- Successive `strtok (…, " ")` calls over the NUL-terminated request
line: split on the single delimiter `' '` (32), skipping delimiter runs
and yielding the non-empty tokens in order. `acc` holds the bytes of the
token currently being read, in reverse. -/
def tokAux : List Nat → List Nat → List (List Nat)
  | [], acc => if acc.isEmpty then [] else [acc.reverse]
  | x :: xs, acc =>
    if x = 32 then
      (if acc.isEmpty then tokAux xs [] else acc.reverse :: tokAux xs [])
    else tokAux xs (x :: acc)

/-- The token sequence `strtok` produces from the request line. -/
def tokenize (line : List Nat) : List (List Nat) := tokAux line []

/-- The literal `"GET"`. -/
def GETbytes : List Nat := [71, 69, 84]

/-- `qstring = index (resource, '?')` followed by the test
`qstring == NULL || qstring[1] == '\0'`: true iff the first `'?'` (63)
in the token exists and is not its last byte. -/
def hasQuery : List Nat → Bool
  | [] => false
  | x :: xs => if x = 63 then !xs.isEmpty else hasQuery xs

/-- Dispatch outcome of `send_request`: `forward` = a broker message is
built and sent and the descriptor is kept open; `reject` = the `cleanup`
path sends `ERROR_404`, closes the socket (both paths then enqueue the
slot for removal). -/
inductive Dispatch where
  | forward
  | reject
deriving DecidableEq, Repr

/-- `send_request`'s validation logic on the completed request line:
no first token → reject ("no verb"); first token ≠ "GET" → reject;
no second token → reject ("no filename"); second token without a `'?'`
followed by at least one byte → reject ("no query string"); otherwise
the request is forwarded to the broker. -/
def send_request (line : List Nat) : Dispatch :=
  match tokenize line with
  | [] => Dispatch.reject
  | verb :: rest =>
    if verb = GETbytes then
      match rest with
      | [] => Dispatch.reject
      | resource :: _ =>
        if hasQuery resource then Dispatch.forward else Dispatch.reject
    else Dispatch.reject

/-- Modelled from the spec's words ("split the line on whitespace;
first token must equal the literal verb \"GET\" …; second token … must
contain a `?` with at least one character after it"): the claim's
dispatch condition with *whitespace*-separated tokens, splitting on
space (32) and horizontal tab (9). Spec-facing definition used only to
state the original claim; the code's `tokenize` splits on `' '` alone,
because that is the delimiter set `strtok (buf, " ")` receives. -/
def wsTokAux : List Nat → List Nat → List (List Nat)
  | [], acc => if acc.isEmpty then [] else [acc.reverse]
  | x :: xs, acc =>
    if x = 32 ∨ x = 9 then
      (if acc.isEmpty then wsTokAux xs [] else acc.reverse :: wsTokAux xs [])
    else wsTokAux xs (x :: acc)

/-- Whitespace-separated tokens of the request line (spec-facing). -/
def spec_ws_tokens (line : List Nat) : List (List Nat) := wsTokAux line []

/-- The claim's forwarding condition, stated over whitespace-separated
tokens (spec-facing). -/
def spec_dispatch_condition (line : List Nat) : Bool :=
  match spec_ws_tokens line with
  | verb :: resource :: _ =>
    (verb == GETbytes) &&
      (List.range resource.length).any
        (fun i => (resource.getD i 0 == 63) && decide (i + 1 < resource.length))
  | _ => false

/-! ### C6 — request validation -/

/-- C6 (counterexample): the request line `"GET\t/p?q"` (a horizontal tab
between verb and resource). Its first *whitespace*-separated token is
`"GET"` and its second contains `'?'` followed by a byte, so the claim
demands Forward — but `strtok (buf, " ")` splits on the space character
only, making the whole line a single token different from `"GET"`, and
the code rejects it. -/
theorem send_request_tab_reject :
    spec_dispatch_condition [71, 69, 84, 9, 47, 112, 63, 113] = true ∧
    send_request [71, 69, 84, 9, 47, 112, 63, 113] = Dispatch.reject := by
  exact ⟨by decide, by decide⟩

/-- The code's first-`'?'`-not-last test is equivalent to "contains a
`'?'` with at least one byte after it". -/
theorem hasQuery_iff (t : List Nat) :
    hasQuery t = true ↔ ∃ i, i + 1 < t.length ∧ t.getD i 0 = 63 := by
  induction t with
  | nil => simp [hasQuery]
  | cons x xs ih =>
    by_cases hx : x = 63
    · subst hx
      rw [hasQuery, if_pos rfl]
      constructor
      · intro h
        cases xs with
        | nil => simp [List.isEmpty] at h
        | cons y ys =>
          exact ⟨0, by simp [List.length_cons], rfl⟩
      · rintro ⟨i, hi, hv⟩
        cases xs with
        | nil => simp at hi
        | cons y ys => simp [List.isEmpty]
    · rw [hasQuery, if_neg hx, ih]
      constructor
      · rintro ⟨i, hi, hv⟩
        exact ⟨i + 1, by simp [List.length_cons]; omega, hv⟩
      · rintro ⟨i, hi, hv⟩
        cases i with
        | zero => exact absurd hv hx
        | succ i' =>
          refine ⟨i', ?_, hv⟩
          simp [List.length_cons] at hi
          omega

/-- C6 (amended): `send_request` forwards a request line if and only if
its first *space*-separated token is the literal `"GET"` (case-sensitive)
and its second space-separated token contains a `'?'` with at least one
byte after it; otherwise it rejects. In particular
`"GET /plan?from=A&to=B HTTP/1.0"` is forwarded while
`"POST /plan?x HTTP/1.0"`, `"GET /plan HTTP/1.0"` and
`"GET /plan? HTTP/1.0"` are rejected. (The claim said
*whitespace*-separated; `strtok` is called with the delimiter set
`" "`, so only the space byte separates tokens.) -/
theorem send_request_forward_iff (line : List Nat) :
    (send_request line = Dispatch.forward ↔
      (∃ resource rest, tokenize line = GETbytes :: resource :: rest ∧
        ∃ i, i + 1 < resource.length ∧ resource.getD i 0 = 63)) ∧
    send_request (strBytes "GET /plan?from=A&to=B HTTP/1.0") = Dispatch.forward ∧
    send_request (strBytes "POST /plan?x HTTP/1.0") = Dispatch.reject ∧
    send_request (strBytes "GET /plan HTTP/1.0") = Dispatch.reject ∧
    send_request (strBytes "GET /plan? HTTP/1.0") = Dispatch.reject := by
  refine ⟨?_, by decide, by decide, by decide, by decide⟩
  cases htok : tokenize line with
  | nil =>
    simp only [send_request, htok]
    constructor
    · intro h
      exact Dispatch.noConfusion h
    · rintro ⟨resource, rest, heq, hex⟩
      exact List.noConfusion heq
  | cons verb rest0 =>
    simp only [send_request, htok]
    by_cases hv : verb = GETbytes
    · subst hv
      rw [if_pos rfl]
      cases rest0 with
      | nil =>
        constructor
        · intro h
          exact Dispatch.noConfusion h
        · rintro ⟨resource, rest, heq, hex⟩
          injection heq with h1 h2
          exact List.noConfusion h2
      | cons resource rest1 =>
        show (if hasQuery resource = true then Dispatch.forward else Dispatch.reject) =
          Dispatch.forward ↔ _
        by_cases hq : hasQuery resource = true
        · rw [if_pos hq]
          constructor
          · intro hfwd
            exact ⟨resource, rest1, rfl, (hasQuery_iff resource).mp hq⟩
          · intro hcond
            rfl
        · rw [if_neg hq]
          constructor
          · intro h
            exact Dispatch.noConfusion h
          · rintro ⟨r2, rest2, heq, hex⟩
            injection heq with h1 h2
            injection h2 with h3 h4
            subst h3
            exact absurd ((hasQuery_iff resource).mpr hex) hq
    · rw [if_neg hv]
      constructor
      · intro h
        exact Dispatch.noConfusion h
      · rintro ⟨r2, rest2, heq, hex⟩
        injection heq with h1 h2
        exact absurd h1 hv

/-! ### C4 — exactly-once enqueue discipline of the read phase -/

/-- One ready-connection event of the read phase
(`bool eol = read_input (c); … if (eol) send_request (c, broker_socket);`):
`read_input` enqueues the slot itself only on the peer-closed path, and
returns `true` only on line completion, in which case `send_request`
runs — and *every* path of `send_request` (forward after `zmsg_send`, or
the `cleanup` path after sending `ERROR_404` and closing the socket)
ends in exactly one `remove_conn_later (nc)`. Result: the connection's
updated buffer and the updated removal queue. -/
def handle_read_event (b : Buffer) (q : List Nat) (nc : Nat) (data : List Nat) :
    Buffer × List Nat :=
  match read_input b q nc data with
  | (b', q', ReadResult.lineComplete) => (b', remove_conn_later q' nc)
  | (b', q', _) => (b', q')

/-- The read phase of one event-loop iteration
(`for (uint32_t c = 0; c < n_conn && n_waiting > 0; ++c) …`), tracking
the removal queue: `remaining` counts the slots left to scan (initially
`n_conn`), `c` is the current index, `ready c` models
`conn_items[c].revents & ZMQ_POLLIN`, and `bufs c` / `incoming c` are
connection `c`'s buffer and pending bytes (each index is visited at most
once, so per-index data suffices). -/
def read_loop_queue (ready : Nat → Bool) (bufs : Nat → Buffer)
    (incoming : Nat → List Nat) : Nat → Nat → Nat → List Nat → List Nat
  | 0, _, _, q => q
  | remaining + 1, c, nWaiting, q =>
    if nWaiting = 0 then q
    else if ready c then
      read_loop_queue ready bufs incoming remaining (c + 1) (nWaiting - 1)
        (handle_read_event (bufs c) q c (incoming c)).2
    else read_loop_queue ready bufs incoming remaining (c + 1) nWaiting q

/-- `read_input` either leaves the queue untouched, or (exactly on the
peer-closed path) appends its own slot index once. -/
theorem read_input_queue_cases (b : Buffer) (q : List Nat) (nc : Nat)
    (data : List Nat) :
    ((read_input b q nc data).2.1 = q ∧
      (read_input b q nc data).2.2 ≠ ReadResult.peerClosed) ∨
    ((read_input b q nc data).2.1 = q ++ [nc] ∧
      (read_input b q nc data).2.2 = ReadResult.peerClosed) := by
  unfold read_input
  by_cases h0 : (data.take (BUFLEN - b.size)).length = 0
  · rw [if_pos h0]
    right
    exact ⟨rfl, rfl⟩
  · rw [if_neg h0]
    by_cases h2 : BUFLEN ≤ b.size + (data.take (BUFLEN - b.size)).length
    · rw [if_pos h2]
      left
      exact ⟨rfl, fun hcon => ReadResult.noConfusion hcon⟩
    · rw [if_neg h2]
      cases hft : findTerm (writeAt b.buf b.size (data.take (BUFLEN - b.size)))
          b.size ((data.take (BUFLEN - b.size)).length + 1) with
      | some i =>
        left
        exact ⟨rfl, fun hcon => ReadResult.noConfusion hcon⟩
      | none =>
        left
        exact ⟨rfl, fun hcon => ReadResult.noConfusion hcon⟩

/-- A single read event appends its own index at most once to the queue:
the peer-closed enqueue and the post-dispatch enqueue are mutually
exclusive. -/
theorem handle_read_event_queue (b : Buffer) (q : List Nat) (nc : Nat)
    (data : List Nat) :
    (handle_read_event b q nc data).2 = q ∨
    (handle_read_event b q nc data).2 = q ++ [nc] := by
  have hcases := read_input_queue_cases b q nc data
  unfold handle_read_event
  cases hri : read_input b q nc data with
  | mk b' rest =>
    cases rest with
    | mk q' r =>
      rw [hri] at hcases
      cases r with
      | peerClosed =>
        rcases hcases with ⟨hq, hr⟩ | ⟨hq, hr⟩
        · exact absurd rfl hr
        · right
          exact hq
      | overflow =>
        rcases hcases with ⟨hq, hr⟩ | ⟨hq, hr⟩
        · left
          exact hq
        · exact absurd hr (fun h => ReadResult.noConfusion h)
      | lineComplete =>
        rcases hcases with ⟨hq, hr⟩ | ⟨hq, hr⟩
        · have hq' : q' = q := hq
          right
          show q' ++ [nc] = q ++ [nc]
          rw [hq']
        · exact absurd hr (fun h => ReadResult.noConfusion h)
      | needMore =>
        rcases hcases with ⟨hq, hr⟩ | ⟨hq, hr⟩
        · left
          exact hq
        · exact absurd hr (fun h => ReadResult.noConfusion h)

/-- The read loop only appends to the queue; what it appends is
duplicate-free and consists of indices at least the starting index. -/
theorem read_loop_queue_extends (ready : Nat → Bool) (bufs : Nat → Buffer)
    (incoming : Nat → List Nat) :
    ∀ remaining c nWaiting q, ∃ suf,
      read_loop_queue ready bufs incoming remaining c nWaiting q = q ++ suf ∧
      suf.Nodup ∧ ∀ x ∈ suf, c ≤ x := by
  intro remaining
  induction remaining with
  | zero =>
    intro c nw q
    exact ⟨[], by rw [read_loop_queue, List.append_nil], List.nodup_nil, by simp⟩
  | succ rem ih =>
    intro c nw q
    by_cases hw : nw = 0
    · refine ⟨[], ?_, List.nodup_nil, by simp⟩
      rw [read_loop_queue, if_pos hw, List.append_nil]
    · by_cases hr : ready c = true
      · obtain ⟨suf, hsuf, hnd, hge⟩ :=
          ih (c + 1) (nw - 1) (handle_read_event (bufs c) q c (incoming c)).2
        rcases handle_read_event_queue (bufs c) q c (incoming c) with hq | hq
        · refine ⟨suf, ?_, hnd, fun x hx => Nat.le_of_succ_le (hge x hx)⟩
          rw [read_loop_queue, if_neg hw, if_pos hr, hsuf, hq]
        · refine ⟨c :: suf, ?_, ?_, ?_⟩
          · rw [read_loop_queue, if_neg hw, if_pos hr, hsuf, hq, List.append_assoc]
            rfl
          · exact List.nodup_cons.mpr
              ⟨fun hc => absurd (hge c hc) (by omega), hnd⟩
          · intro x hx
            rcases List.mem_cons.mp hx with hxc | hx'
            · rw [hxc]
            · exact Nat.le_of_succ_le (hge x hx')
      · obtain ⟨suf, hsuf, hnd, hge⟩ := ih (c + 1) nw q
        refine ⟨suf, ?_, hnd, fun x hx => Nat.le_of_succ_le (hge x hx)⟩
        rw [read_loop_queue, if_neg hw, if_neg hr, hsuf]

/-- C4: per read event, the peer-closed enqueue inside `read_input` and
the post-dispatch enqueue after `send_request` are mutually exclusive —
if `read_input` completes a line it has not itself enqueued, and a
handled event appends its own index at most once; consequently the whole
read phase, which visits each index at most once starting from the empty
per-iteration queue, produces a duplicate-free removal queue: no
connection index is enqueued more than once in one iteration. -/
theorem enqueue_once_per_iteration (b : Buffer) (q : List Nat) (nc : Nat)
    (data : List Nat) (ready : Nat → Bool) (bufs : Nat → Buffer)
    (incoming : Nat → List Nat) (nConn nWaiting : Nat) :
    ((read_input b q nc data).2.2 = ReadResult.lineComplete →
      (read_input b q nc data).2.1 = q) ∧
    ((handle_read_event b q nc data).2 = q ∨
      (handle_read_event b q nc data).2 = q ++ [nc]) ∧
    (read_loop_queue ready bufs incoming nConn 0 nWaiting []).Nodup := by
  refine ⟨?_, handle_read_event_queue b q nc data, ?_⟩
  · intro h
    rcases read_input_queue_cases b q nc data with ⟨hq, hr⟩ | ⟨hq, hr⟩
    · exact hq
    · rw [h] at hr
      exact ReadResult.noConfusion hr
  · obtain ⟨suf, hsuf, hnd, hge⟩ :=
      read_loop_queue_extends ready bufs incoming nConn 0 nWaiting []
    rw [hsuf, List.nil_append]
    exact hnd

/-! ### C9 — ordering of one event-loop iteration -/

/-- Observable steps of one iteration of the `for (;;)` loop in `main`. -/
inductive Ev where
  | brokerReply
  | accept
  | connRead (c : Nat)
  | applyRemovals
deriving DecidableEq, Repr

/-- Trace of the read loop
(`for (uint32_t c = 0; c < n_conn && n_waiting > 0; ++c)`): a
`connRead c` event for every ready connection visited before the
readiness budget `n_waiting` runs out. -/
def read_loop_trace (ready : Nat → Bool) : Nat → Nat → Nat → List Ev
  | 0, _, _ => []
  | remaining + 1, c, nWaiting =>
    if nWaiting = 0 then []
    else if ready c then
      Ev.connRead c :: read_loop_trace ready remaining (c + 1) (nWaiting - 1)
    else read_loop_trace ready remaining (c + 1) nWaiting

/-- Trace of one whole iteration of `main`'s loop, before the final
queue application: the broker branch (guarded by
`broker_item->revents & ZMQ_POLLIN`, decrementing `n_waiting`), then the
accept branch (guarded by `http_item->revents & ZMQ_POLLIN`; a
successful `accept` feeds `add_conn`, which grows `n_conn` below
capacity, so the read loop's bound reflects the *new* count), then the
read loop. -/
def iteration_pre_trace (brokerReady httpReady acceptOk : Bool)
    (ready : Nat → Bool) (nConn nWaiting : Nat) : List Ev :=
  (if brokerReady then [Ev.brokerReply] else []) ++
  (if httpReady then [Ev.accept] else []) ++
  read_loop_trace ready
    (if httpReady && acceptOk && decide (nConn < MAX_CONN) then nConn + 1
    else nConn)
    0
    (nWaiting - (if brokerReady then 1 else 0) - (if httpReady then 1 else 0))

/-- One whole iteration: the pre-trace followed by the single
`remove_conn_enqueued ()` call at the bottom of the loop body. -/
def iteration_trace (brokerReady httpReady acceptOk : Bool)
    (ready : Nat → Bool) (nConn nWaiting : Nat) : List Ev :=
  iteration_pre_trace brokerReady httpReady acceptOk ready nConn nWaiting ++
    [Ev.applyRemovals]

/-- Phase rank of an event: broker reply (0) before accept (1) before
connection reads (2) before queue application (3). -/
def phase : Ev → Nat
  | Ev.brokerReply => 0
  | Ev.accept => 1
  | Ev.connRead _ => 2
  | Ev.applyRemovals => 3

/-- Every event of the read loop is a connection read. -/
theorem read_loop_trace_phase (ready : Nat → Bool) :
    ∀ remaining c nWaiting, ∀ e ∈ read_loop_trace ready remaining c nWaiting,
      phase e = 2 := by
  intro remaining
  induction remaining with
  | zero =>
    intro c nw e he
    rw [read_loop_trace] at he
    simp at he
  | succ rem ih =>
    intro c nw e he
    rw [read_loop_trace] at he
    by_cases hw : nw = 0
    · rw [if_pos hw] at he
      simp at he
    · rw [if_neg hw] at he
      by_cases hr : ready c = true
      · rw [if_pos hr] at he
        rcases List.mem_cons.mp he with hec | he'
        · rw [hec]
          rfl
        · exact ih (c + 1) (nw - 1) e he'
      · rw [if_neg hr] at he
        exact ih (c + 1) nw e he

/-- A list whose events all rank 2 is phase-pairwise-ordered. -/
theorem pairwise_phase_of_all_two (l : List Ev) (h : ∀ e ∈ l, phase e = 2) :
    List.Pairwise (fun a b => phase a ≤ phase b) l := by
  induction l with
  | nil => exact List.Pairwise.nil
  | cons e t ih =>
    refine List.Pairwise.cons ?_ (ih (fun x hx => h x (List.mem_cons_of_mem e hx)))
    intro b hb
    rw [h e (List.mem_cons_self e t), h b (List.mem_cons_of_mem e hb)]

/-- Every pre-trace event ranks at most 2 and is not the queue
application. -/
theorem iteration_pre_trace_phase (brokerReady httpReady acceptOk : Bool)
    (ready : Nat → Bool) (nConn nWaiting : Nat) :
    ∀ e ∈ iteration_pre_trace brokerReady httpReady acceptOk ready nConn nWaiting,
      phase e ≤ 2 ∧ e ≠ Ev.applyRemovals := by
  intro e he
  rw [iteration_pre_trace] at he
  rcases List.mem_append.mp he with he1 | he2
  · rcases List.mem_append.mp he1 with heb | hea
    · cases brokerReady with
      | false => simp at heb
      | true =>
        simp at heb
        rw [heb]
        exact ⟨by decide, by decide⟩
    · cases httpReady with
      | false => simp at hea
      | true =>
        simp at hea
        rw [hea]
        exact ⟨by decide, by decide⟩
  · have h2 := read_loop_trace_phase ready _ _ _ e he2
    constructor
    · omega
    · intro hcon
      rw [hcon] at h2
      exact absurd h2 (by decide)

/-- C9: in every iteration of the event loop — for all readiness
patterns, accept outcomes, table occupancies and readiness budgets —
the phase ranks along the trace are non-decreasing: every broker-reply
handling precedes every accept, every accept precedes every connection
read; and the removal queue is applied exactly once, as the very last
step, never mid-iteration. -/
theorem iteration_order (brokerReady httpReady acceptOk : Bool)
    (ready : Nat → Bool) (nConn nWaiting : Nat) :
    List.Sorted (fun a b => a ≤ b)
      ((iteration_trace brokerReady httpReady acceptOk ready nConn nWaiting).map
        phase) ∧
    (iteration_trace brokerReady httpReady acceptOk ready nConn nWaiting).count
      Ev.applyRemovals = 1 ∧
    (iteration_trace brokerReady httpReady acceptOk ready nConn nWaiting).getLast? =
      some Ev.applyRemovals := by
  have hpre := iteration_pre_trace_phase brokerReady httpReady acceptOk ready
    nConn nWaiting
  refine ⟨?_, ?_, ?_⟩
  · rw [iteration_trace, List.Sorted, List.pairwise_map, List.pairwise_append]
    refine ⟨?_, by simp, ?_⟩
    · -- the pre-trace is phase-sorted: 0s, then 1s, then 2s
      rw [iteration_pre_trace, List.pairwise_append]
      refine ⟨?_, ?_, ?_⟩
      · rw [List.pairwise_append]
        refine ⟨?_, ?_, ?_⟩
        · cases brokerReady <;> simp
        · cases httpReady <;> simp
        · intro a ha b hb
          cases brokerReady with
          | false => simp at ha
          | true =>
            simp at ha
            cases httpReady with
            | false => simp at hb
            | true =>
              simp at hb
              rw [ha, hb]
              decide
      · -- all read-loop phases equal 2
        exact pairwise_phase_of_all_two _ (read_loop_trace_phase ready _ _ _)
      · intro a ha b hb
        have h2 := read_loop_trace_phase ready _ _ _ b hb
        rw [h2]
        rcases List.mem_append.mp ha with ha1 | ha2
        · cases brokerReady with
          | false => simp at ha1
          | true =>
            simp at ha1
            rw [ha1]
            decide
        · cases httpReady with
          | false => simp at ha2
          | true =>
            simp at ha2
            rw [ha2]
            decide
    · intro a ha b hb
      simp at hb
      have hle := (hpre a ha).1
      have h3 : phase Ev.applyRemovals = 3 := rfl
      rw [hb]
      omega
  · rw [iteration_trace, List.count_append]
    have hnot : Ev.applyRemovals ∉
        iteration_pre_trace brokerReady httpReady acceptOk ready nConn nWaiting :=
      fun hmem => (hpre _ hmem).2 rfl
    rw [List.count_eq_zero.mpr hnot]
    rfl
  · rw [iteration_trace]
    exact List.getLast?_concat _

/-! ### C2 — the reply router and descriptor round-tripping -/

/-- `zmsg_pushmem (msg, &conn_sd, sizeof(conn_sd))`: the four-byte
in-memory (little-endian) representation of the `uint32_t` connection
descriptor, embedded verbatim as the first frame of the outbound broker
message and echoed back verbatim in the reply envelope. -/
def u32_frame (sd : Nat) : List Nat :=
  [sd % 256, sd / 256 % 256, sd / 65536 % 256, sd / 16777216 % 256]

/-- `uint32_t sd = *(zframe_data (sd_frame))`: `zframe_data` returns a
pointer to byte (`unsigned char`), so the plain dereference reads only
the FIRST byte of the descriptor frame. -/
def reply_extract_sd (frame : List Nat) : Nat := frame.headD 0

/-- `OK_TEXT_PLAIN` — the fixed plaintext-OK header. -/
def OK_TEXT_PLAIN : List Nat :=
  strBytes "HTTP/1.0 200 OK\nContent-Type:text/plain\n\n"

/-- Observable I/O actions of the reply router. -/
inductive IOAct where
  | sendBytes (fd : Nat) (payload : List Nat)
  | closeFd (fd : Nat)
deriving DecidableEq, Repr

/-- The broker-reply branch of `main`'s loop: pop the descriptor frame,
extract `sd`, `send` the plaintext-OK header to `sd`, `send` the popped
payload string to `sd`, `close (sd)`. -/
def route_reply (sdFrame payload : List Nat) : List IOAct :=
  [IOAct.sendBytes (reply_extract_sd sdFrame) OK_TEXT_PLAIN,
   IOAct.sendBytes (reply_extract_sd sdFrame) payload,
   IOAct.closeFd (reply_extract_sd sdFrame)]

/-- C2: descriptor 256 is embedded verbatim as its four bytes
`[0, 1, 0, 0]`, but the reply router's extraction dereferences a byte
pointer and reads back 0, so the fixed OK header and the payload are
written to descriptor 0 — not 256 — and descriptor 0 is closed.
Identity round-tripping therefore fails for descriptor values ≥ 256
(it holds only for the low-byte range). -/
theorem route_reply_truncates_descriptor :
    u32_frame 256 = [0, 1, 0, 0] ∧
    reply_extract_sd (u32_frame 256) = 0 ∧
    route_reply (u32_frame 256) (strBytes "route-xyz") =
      [IOAct.sendBytes 0 OK_TEXT_PLAIN,
       IOAct.sendBytes 0 (strBytes "route-xyz"),
       IOAct.closeFd 0] ∧
    (256 : Nat) ≠ 0 := by
  exact ⟨by decide, rfl, rfl, by decide⟩

end OtpApi
